import Mathlib

/-!
Verification of the brainfudge interpreter core: the tokenizer and jump-table
builder (src/lexer.rs, src/main.rs) and the execution engine (src/runtime.rs),
shallowly embedded in Lean. Machine bytes (u8 cells) are modelled as `Nat`
with explicit `% 256` at the points where the Rust code wraps; the Rust
`HashMap<usize, usize>` is modelled as an association list with distinct keys
(insert replaces an existing binding, lookup finds the binding); the stdin
read performed by the Input instruction is modelled by passing the outcome of
the read (`Except IoError Nat`) as an explicit argument; `print!` output is an
external effect with no bearing on the state, so the Output handler only
advances the instruction pointer. Rust methods that mutate `&mut self` and
return `Result<(), E>` become functions `State → Except E State`: returning
`.error e` corresponds to the Rust early `return Err(e)` paths, on which the
Rust code has not mutated any field, so the caller's state is unchanged.
-/

/-- Stand-in for Rust's opaque `std::io::Error` payload carried by
`InputError`; its only role is to be carried through unchanged. -/
abbrev IoError := Nat

/-- The eight instruction tokens (src/lexer.rs, `enum Token`). -/
inductive Token where
  | Increment
  | Decrement
  | PointerIncrement
  | PointerDecrement
  | LoopStart
  | LoopEnd
  | Input
  | Output
deriving DecidableEq, Repr

/-- `Token::parse` (src/lexer.rs): the fixed character-to-token table. -/
def Token.parse (character : Char) : Option Token :=
  match character with
  | '+' => some .Increment
  | '-' => some .Decrement
  | '>' => some .PointerIncrement
  | '<' => some .PointerDecrement
  | '[' => some .LoopStart
  | ']' => some .LoopEnd
  | ',' => some .Input
  | '.' => some .Output
  | _ => none

/-- `tokenize` (src/main.rs): map every character through `Token.parse` and
keep the hits, in order (`map parse`, `filter is_some`, `map unwrap`). -/
def tokenize (source : List Char) : List Token :=
  source.filterMap Token.parse

/-- Lookup in the association-list model of `HashMap<usize, usize>`:
the value of the first (and, by the insert discipline, only) binding of `k`. -/
def hmGet (m : List (Nat × Nat)) (k : Nat) : Option Nat :=
  (m.find? (fun pr => pr.1 == k)).map (fun pr => pr.2)

/-- Insert in the association-list model of `HashMap<usize, usize>`:
drop any existing binding of `k`, then bind `k` to `v`. -/
def hmInsert (m : List (Nat × Nat)) (k v : Nat) : List (Nat × Nat) :=
  (k, v) :: m.eraseP (fun pr => pr.1 == k)

/-- `struct JumpTable` (src/lexer.rs): the `jumps` map between matched
loop-start and loop-end positions. -/
structure JumpTable where
  jumps : List (Nat × Nat)
deriving DecidableEq, Repr

/-- `enum JumpTableError` (src/lexer.rs). -/
inductive JumpTableError where
  | TooManyLoopStarts (count : Nat)
  | NoMatchingLoopEnd (position : Nat)
deriving DecidableEq, Repr

/-- The scan loop of `JumpTable::from` (src/lexer.rs): walk the remaining
tokens at offset `position`, pushing loop-start positions, and on a loop-end
popping the most recent start and recording both directions; after the scan
succeed iff the stack is empty. -/
def JumpTable.fromAux : List Token → Nat → List (Nat × Nat) → List Nat →
    Except JumpTableError JumpTable
  | [], _, jumps, stack =>
    match stack with
    | [] => .ok ⟨jumps⟩
    | _ => .error (.TooManyLoopStarts stack.length)
  | token :: rest, position, jumps, stack =>
    match token with
    | .LoopStart => JumpTable.fromAux rest (position + 1) jumps (position :: stack)
    | .LoopEnd =>
      match stack with
      | [] => .error (.NoMatchingLoopEnd position)
      | start :: stack =>
        JumpTable.fromAux rest (position + 1)
          (hmInsert (hmInsert jumps start position) position start) stack
    | _ => JumpTable.fromAux rest (position + 1) jumps stack

/-- `JumpTable::from` (src/lexer.rs). -/
def JumpTable.fromTokens (tokens : List Token) : Except JumpTableError JumpTable :=
  JumpTable.fromAux tokens 0 [] []

/-- `JumpTable::resolve` (src/lexer.rs): `jumps.get(position)`. -/
def JumpTable.resolve (t : JumpTable) (position : Nat) : Option Nat :=
  hmGet t.jumps position

/-- `enum ExecutionError` (src/runtime.rs). -/
inductive ExecutionError where
  | EndOfInstructions
  | PointerUnderflow (position : Nat)
  | UndefinedJumpTarget (position : Nat)
  | InputError (position : Nat) (cause : IoError)
deriving DecidableEq, Repr

/-- `struct State` (src/runtime.rs): the tape, the memory pointer and the
instruction pointer. -/
structure State where
  memory : List Nat
  memory_pointer : Nat
  instruction_pointer : Nat
deriving DecidableEq, Repr

/-- `State::new` (src/runtime.rs): one zero cell, both pointers at 0. -/
def State.new : State :=
  { memory := [0], memory_pointer := 0, instruction_pointer := 0 }

/-- `State::can_execute` (src/runtime.rs). -/
def State.can_execute (s : State) (tokens : List Token) : Bool :=
  s.instruction_pointer < tokens.length

/-- `State::execute_increment` (src/runtime.rs): `overflowing_add(1)` on the
current cell, then advance. -/
def State.execute_increment (s : State) : State :=
  { s with
    memory := s.memory.set s.memory_pointer ((s.memory.getD s.memory_pointer 0 + 1) % 256)
    instruction_pointer := s.instruction_pointer + 1 }

/-- `State::execute_decrement` (src/runtime.rs): `overflowing_sub(1)` on the
current cell (on a u8 value, subtracting 1 mod 256 is adding 255 mod 256),
then advance. -/
def State.execute_decrement (s : State) : State :=
  { s with
    memory := s.memory.set s.memory_pointer ((s.memory.getD s.memory_pointer 0 + 255) % 256)
    instruction_pointer := s.instruction_pointer + 1 }

/-- `State::execute_pointer_increment` (src/runtime.rs): advance the memory
pointer, push a zero cell when the tape length equals the new pointer, then
advance the instruction pointer. -/
def State.execute_pointer_increment (s : State) : State :=
  { s with
    memory :=
      if s.memory.length = s.memory_pointer + 1 then s.memory ++ [0] else s.memory
    memory_pointer := s.memory_pointer + 1
    instruction_pointer := s.instruction_pointer + 1 }

/-- `State::execute_pointer_decrement` (src/runtime.rs): fail with
`PointerUnderflow` at pointer 0, otherwise step both pointers. -/
def State.execute_pointer_decrement (s : State) : Except ExecutionError State :=
  if s.memory_pointer = 0 then
    .error (.PointerUnderflow s.instruction_pointer)
  else
    .ok { s with
      memory_pointer := s.memory_pointer - 1
      instruction_pointer := s.instruction_pointer + 1 }

/-- `State::execute_loop_start` (src/runtime.rs): on a zero cell jump to one
past the resolved loop-end (or fail with `UndefinedJumpTarget`); on a
non-zero cell advance by 1. -/
def State.execute_loop_start (s : State) (jump_table : JumpTable) :
    Except ExecutionError State :=
  match s.memory.getD s.memory_pointer 0 with
  | 0 =>
    match jump_table.resolve s.instruction_pointer with
    | some x => .ok { s with instruction_pointer := x + 1 }
    | none => .error (.UndefinedJumpTarget s.instruction_pointer)
  | _ + 1 => .ok { s with instruction_pointer := s.instruction_pointer + 1 }

/-- `State::execute_loop_end` (src/runtime.rs): jump back exactly onto the
resolved loop-start (or fail with `UndefinedJumpTarget`). -/
def State.execute_loop_end (s : State) (jump_table : JumpTable) :
    Except ExecutionError State :=
  match jump_table.resolve s.instruction_pointer with
  | some x => .ok { s with instruction_pointer := x }
  | none => .error (.UndefinedJumpTarget s.instruction_pointer)

/-- `State::execute_input` (src/runtime.rs): the outcome of
`stdin().read_exact` on a one-byte buffer is passed in as `input`. On a byte,
store it at the memory pointer; on a read error, fail with `InputError`.
Note the source advances the instruction pointer on neither path. -/
def State.execute_input (s : State) (input : Except IoError Nat) :
    Except ExecutionError State :=
  match input with
  | .ok byte => .ok { s with memory := s.memory.set s.memory_pointer byte }
  | .error e => .error (.InputError s.instruction_pointer e)

/-- `State::execute_output` (src/runtime.rs): `print!` of the current cell is
an external effect; the state change is advancing the instruction pointer. -/
def State.execute_output (s : State) : State :=
  { s with instruction_pointer := s.instruction_pointer + 1 }

/-- `State::execute_current_instruction` (src/runtime.rs): fail with
`EndOfInstructions` when `can_execute` is false, otherwise dispatch on the
current token. The `.Increment` default of `getD` is never consulted: the
guard guarantees the index is in bounds. -/
def State.execute_current_instruction (s : State) (tokens : List Token)
    (jump_table : JumpTable) (input : Except IoError Nat) :
    Except ExecutionError State :=
  if s.can_execute tokens then
    match tokens.getD s.instruction_pointer .Increment with
    | .Increment => .ok s.execute_increment
    | .Decrement => .ok s.execute_decrement
    | .PointerIncrement => .ok s.execute_pointer_increment
    | .PointerDecrement => s.execute_pointer_decrement
    | .LoopStart => s.execute_loop_start jump_table
    | .LoopEnd => s.execute_loop_end jump_table
    | .Input => s.execute_input input
    | .Output => .ok s.execute_output
  else
    .error .EndOfInstructions

/-- Modelled from the spec: the position of the first loop-end token that has
no prior unmatched loop-start, scanning left to right from offset `pos` with
`depth` pending unmatched starts; `none` when every loop-end has a match. -/
def firstUnmatchedEnd : List Token → Nat → Nat → Option Nat
  | [], _, _ => none
  | token :: rest, pos, depth =>
    match token with
    | .LoopStart => firstUnmatchedEnd rest (pos + 1) (depth + 1)
    | .LoopEnd =>
      match depth with
      | 0 => some pos
      | d + 1 => firstUnmatchedEnd rest (pos + 1) d
    | _ => firstUnmatchedEnd rest (pos + 1) depth

/-- Modelled from the spec: the number of unmatched loop-starts remaining
after the scan, starting from `depth` pending starts (meaningful when
`firstUnmatchedEnd` found no unmatched loop-end). -/
def finalDepth : List Token → Nat → Nat
  | [], depth => depth
  | token :: rest, depth =>
    match token with
    | .LoopStart => finalDepth rest (depth + 1)
    | .LoopEnd => finalDepth rest (depth - 1)
    | _ => finalDepth rest depth

/-- Modelled from the spec: the loop brackets are perfectly nested and
balanced — no loop-end lacks a prior unmatched loop-start, and no loop-start
is left unmatched at the end of the scan. -/
def balanced (tokens : List Token) : Bool :=
  (firstUnmatchedEnd tokens 0 0).isNone && finalDepth tokens 0 == 0

/-- States reachable from `State.new` by any sequence of
`execute_current_instruction` calls with arbitrary token sequences, jump
tables and input outcomes. Failing calls return `.error` without having
mutated any field of the Rust state, so only successful steps produce new
states. -/
inductive Reachable : State → Prop where
  | new : Reachable State.new
  | step (s s' : State) (tokens : List Token) (jt : JumpTable)
      (input : Except IoError Nat) :
      Reachable s →
      s.execute_current_instruction tokens jt input = .ok s' →
      Reachable s'

/-- Invariant of the jump-table scan after processing the first `pos` tokens
of `tokens`: the bindings recorded so far pair a LoopStart position with a
LoopEnd position symmetrically, all keys lie below `pos`, the pending-starts
stack holds strictly decreasing LoopStart positions below `pos` that are not
yet bound, and the map holds two bindings per LoopEnd processed. -/
structure JTInv (tokens : List Token) (pos : Nat) (jumps : List (Nat × Nat))
    (stack : List Nat) : Prop where
  sym : ∀ p q, hmGet jumps p = some q → hmGet jumps q = some p
  tok : ∀ p q, hmGet jumps p = some q →
    (tokens.getD p Token.Increment = Token.LoopStart ∧
      tokens.getD q Token.Increment = Token.LoopEnd) ∨
    (tokens.getD p Token.Increment = Token.LoopEnd ∧
      tokens.getD q Token.Increment = Token.LoopStart)
  keys_lt : ∀ p q, hmGet jumps p = some q → p < pos
  stk : ∀ x ∈ stack, x < pos ∧ tokens.getD x Token.Increment = Token.LoopStart ∧
    hmGet jumps x = none
  pw : stack.Pairwise (fun a b => b < a)
  len : jumps.length = 2 * ((tokens.take pos).count Token.LoopEnd)

/-! Helper lemmas about the single-step executor. -/

lemma execute_dispatch (s : State) (tokens : List Token) (jt : JumpTable)
    (input : Except IoError Nat) (hip : s.instruction_pointer < tokens.length) :
    s.execute_current_instruction tokens jt input =
      match tokens.getD s.instruction_pointer .Increment with
      | .Increment => .ok s.execute_increment
      | .Decrement => .ok s.execute_decrement
      | .PointerIncrement => .ok s.execute_pointer_increment
      | .PointerDecrement => s.execute_pointer_decrement
      | .LoopStart => s.execute_loop_start jt
      | .LoopEnd => s.execute_loop_end jt
      | .Input => s.execute_input input
      | .Output => .ok s.execute_output := by
  unfold State.execute_current_instruction
  simp [State.can_execute, hip]

lemma execute_out_of_bounds (s : State) (tokens : List Token) (jt : JumpTable)
    (input : Except IoError Nat) (hip : ¬ s.instruction_pointer < tokens.length) :
    s.execute_current_instruction tokens jt input = .error .EndOfInstructions := by
  unfold State.execute_current_instruction
  simp [State.can_execute, hip]

lemma execute_at_increment (s : State) (tokens : List Token) (jt : JumpTable)
    (input : Except IoError Nat) (hip : s.instruction_pointer < tokens.length)
    (htok : tokens.getD s.instruction_pointer .Increment = .Increment) :
    s.execute_current_instruction tokens jt input = .ok s.execute_increment := by
  rw [execute_dispatch s tokens jt input hip, htok]

lemma execute_at_decrement (s : State) (tokens : List Token) (jt : JumpTable)
    (input : Except IoError Nat) (hip : s.instruction_pointer < tokens.length)
    (htok : tokens.getD s.instruction_pointer .Increment = .Decrement) :
    s.execute_current_instruction tokens jt input = .ok s.execute_decrement := by
  rw [execute_dispatch s tokens jt input hip, htok]

lemma execute_at_pointer_increment (s : State) (tokens : List Token) (jt : JumpTable)
    (input : Except IoError Nat) (hip : s.instruction_pointer < tokens.length)
    (htok : tokens.getD s.instruction_pointer .Increment = .PointerIncrement) :
    s.execute_current_instruction tokens jt input = .ok s.execute_pointer_increment := by
  rw [execute_dispatch s tokens jt input hip, htok]

lemma execute_at_pointer_decrement (s : State) (tokens : List Token) (jt : JumpTable)
    (input : Except IoError Nat) (hip : s.instruction_pointer < tokens.length)
    (htok : tokens.getD s.instruction_pointer .Increment = .PointerDecrement) :
    s.execute_current_instruction tokens jt input = s.execute_pointer_decrement := by
  rw [execute_dispatch s tokens jt input hip, htok]

lemma execute_at_loop_start (s : State) (tokens : List Token) (jt : JumpTable)
    (input : Except IoError Nat) (hip : s.instruction_pointer < tokens.length)
    (htok : tokens.getD s.instruction_pointer .Increment = .LoopStart) :
    s.execute_current_instruction tokens jt input = s.execute_loop_start jt := by
  rw [execute_dispatch s tokens jt input hip, htok]

lemma execute_at_loop_end (s : State) (tokens : List Token) (jt : JumpTable)
    (input : Except IoError Nat) (hip : s.instruction_pointer < tokens.length)
    (htok : tokens.getD s.instruction_pointer .Increment = .LoopEnd) :
    s.execute_current_instruction tokens jt input = s.execute_loop_end jt := by
  rw [execute_dispatch s tokens jt input hip, htok]

lemma execute_at_input (s : State) (tokens : List Token) (jt : JumpTable)
    (input : Except IoError Nat) (hip : s.instruction_pointer < tokens.length)
    (htok : tokens.getD s.instruction_pointer .Increment = .Input) :
    s.execute_current_instruction tokens jt input = s.execute_input input := by
  rw [execute_dispatch s tokens jt input hip, htok]

lemma execute_at_output (s : State) (tokens : List Token) (jt : JumpTable)
    (input : Except IoError Nat) (hip : s.instruction_pointer < tokens.length)
    (htok : tokens.getD s.instruction_pointer .Increment = .Output) :
    s.execute_current_instruction tokens jt input = .ok s.execute_output := by
  rw [execute_dispatch s tokens jt input hip, htok]

/-- Shape of every successful step: either the current token is
`PointerIncrement` and the memory pointer advances with the conditional
one-cell growth, or it is another token, the tape length is unchanged and the
memory pointer does not increase. -/
lemma step_shape (s s' : State) (tokens : List Token) (jt : JumpTable)
    (input : Except IoError Nat)
    (hok : s.execute_current_instruction tokens jt input = .ok s') :
    (tokens.getD s.instruction_pointer .Increment = .PointerIncrement ∧
      s'.memory_pointer = s.memory_pointer + 1 ∧
      s'.memory =
        (if s.memory.length = s.memory_pointer + 1 then s.memory ++ [0] else s.memory)) ∨
    (tokens.getD s.instruction_pointer .Increment ≠ .PointerIncrement ∧
      s'.memory.length = s.memory.length ∧
      s'.memory_pointer ≤ s.memory_pointer) := by
  by_cases hip : s.instruction_pointer < tokens.length
  · cases h : tokens.getD s.instruction_pointer .Increment
    · rw [execute_at_increment s tokens jt input hip h] at hok
      right
      simp only [Except.ok.injEq] at hok
      subst hok
      simp [State.execute_increment, h]
    · rw [execute_at_decrement s tokens jt input hip h] at hok
      right
      simp only [Except.ok.injEq] at hok
      subst hok
      simp [State.execute_decrement, h]
    · rw [execute_at_pointer_increment s tokens jt input hip h] at hok
      left
      simp only [Except.ok.injEq] at hok
      subst hok
      simp [State.execute_pointer_increment, h]
    · rw [execute_at_pointer_decrement s tokens jt input hip h] at hok
      right
      unfold State.execute_pointer_decrement at hok
      split at hok
      · exact absurd hok (by simp)
      · simp only [Except.ok.injEq] at hok
        subst hok
        exact ⟨by simp [h], by simp, Nat.sub_le s.memory_pointer 1⟩
    · rw [execute_at_loop_start s tokens jt input hip h] at hok
      right
      unfold State.execute_loop_start at hok
      split at hok
      · split at hok
        · simp only [Except.ok.injEq] at hok
          subst hok
          simp [h]
        · exact absurd hok (by simp)
      · simp only [Except.ok.injEq] at hok
        subst hok
        simp [h]
    · rw [execute_at_loop_end s tokens jt input hip h] at hok
      right
      unfold State.execute_loop_end at hok
      split at hok
      · simp only [Except.ok.injEq] at hok
        subst hok
        simp [h]
      · exact absurd hok (by simp)
    · rw [execute_at_input s tokens jt input hip h] at hok
      right
      unfold State.execute_input at hok
      split at hok
      · simp only [Except.ok.injEq] at hok
        subst hok
        simp [h]
      · exact absurd hok (by simp)
    · rw [execute_at_output s tokens jt input hip h] at hok
      right
      simp only [Except.ok.injEq] at hok
      subst hok
      simp [State.execute_output, h]
  · rw [execute_out_of_bounds s tokens jt input hip] at hok
    exact absurd hok (by simp)

/-- C5: when the current token is Increment (resp. Decrement), the step
succeeds, replaces the cell at the memory pointer by its value plus 1
(resp. plus 255, i.e. minus 1 on a byte) modulo 256, advances the
instruction pointer by exactly 1, and — since `List.set` touches only the
index it is given — changes no other cell and not the memory pointer. -/
theorem C5_increment_decrement (s : State) (tokens : List Token) (jt : JumpTable)
    (input : Except IoError Nat)
    (hip : s.instruction_pointer < tokens.length) :
    (tokens.getD s.instruction_pointer .Increment = .Increment →
      s.execute_current_instruction tokens jt input = .ok
        { s with
          memory := s.memory.set s.memory_pointer
            ((s.memory.getD s.memory_pointer 0 + 1) % 256)
          instruction_pointer := s.instruction_pointer + 1 }) ∧
    (tokens.getD s.instruction_pointer .Increment = .Decrement →
      s.execute_current_instruction tokens jt input = .ok
        { s with
          memory := s.memory.set s.memory_pointer
            ((s.memory.getD s.memory_pointer 0 + 255) % 256)
          instruction_pointer := s.instruction_pointer + 1 }) ∧
    (∀ i, i ≠ s.memory_pointer →
      ∀ v, (s.memory.set s.memory_pointer v).getD i 0 = s.memory.getD i 0) := by
  refine ⟨?_, ?_, ?_⟩
  · intro htok
    rw [execute_dispatch s tokens jt input hip, htok]
    rfl
  · intro htok
    rw [execute_dispatch s tokens jt input hip, htok]
    rfl
  · intro i hi v
    simp [List.getD, List.getElem?_set_ne (Ne.symm hi)]

/-- Witness for C5 at a concrete state. -/
theorem C5_witness :
    State.new.execute_current_instruction [Token.Increment] ⟨[]⟩ (.error 0) = .ok
      { State.new with
        memory := State.new.memory.set State.new.memory_pointer
          ((State.new.memory.getD State.new.memory_pointer 0 + 1) % 256)
        instruction_pointer := State.new.instruction_pointer + 1 } :=
  (C5_increment_decrement State.new [Token.Increment] ⟨[]⟩ (.error 0) (by decide)).1 rfl

/-- C6: when the current token is PointerIncrement the step succeeds, the
memory pointer goes up by 1, and the tape gains exactly one zero cell at the
high end iff the new memory pointer equals the old tape length (so the new
pointer indexes the appended cell), and is unchanged otherwise; moreover for
every successful step of any instruction the tape grows by at most one cell,
and for any instruction other than PointerIncrement its length is unchanged. -/
theorem C6_pointer_increment :
    (∀ (s : State) (tokens : List Token) (jt : JumpTable) (input : Except IoError Nat),
      s.instruction_pointer < tokens.length →
      tokens.getD s.instruction_pointer .Increment = .PointerIncrement →
      s.execute_current_instruction tokens jt input = .ok
        { s with
          memory :=
            if s.memory.length = s.memory_pointer + 1 then s.memory ++ [0] else s.memory
          memory_pointer := s.memory_pointer + 1
          instruction_pointer := s.instruction_pointer + 1 }) ∧
    (∀ (s : State) (tokens : List Token) (jt : JumpTable) (input : Except IoError Nat)
      (s' : State),
      s.execute_current_instruction tokens jt input = .ok s' →
      s'.memory.length ≤ s.memory.length + 1) ∧
    (∀ (s : State) (tokens : List Token) (jt : JumpTable) (input : Except IoError Nat)
      (s' : State),
      tokens.getD s.instruction_pointer .Increment ≠ .PointerIncrement →
      s.execute_current_instruction tokens jt input = .ok s' →
      s'.memory.length = s.memory.length) := by
  refine ⟨?_, ?_, ?_⟩
  · intro s tokens jt input hip htok
    rw [execute_at_pointer_increment s tokens jt input hip htok]
    rfl
  · intro s tokens jt input s' hok
    rcases step_shape s s' tokens jt input hok with ⟨_, _, hmem⟩ | ⟨_, hlen, _⟩
    · rw [hmem]
      split <;> simp
    · omega
  · intro s tokens jt input s' hneq hok
    rcases step_shape s s' tokens jt input hok with ⟨htok, _, _⟩ | ⟨_, hlen, _⟩
    · exact absurd htok hneq
    · exact hlen

/-- Witness for C6 at a concrete state: from the last tape index the tape
grows by one zero cell; a non-PointerIncrement step keeps the length. -/
theorem C6_witness :
    State.new.execute_current_instruction [Token.PointerIncrement] ⟨[]⟩ (.error 0) = .ok
      { State.new with
        memory :=
          if State.new.memory.length = State.new.memory_pointer + 1 then
            State.new.memory ++ [0]
          else State.new.memory
        memory_pointer := State.new.memory_pointer + 1
        instruction_pointer := State.new.instruction_pointer + 1 } ∧
    (State.mk [1] 0 1).memory.length = State.new.memory.length :=
  ⟨C6_pointer_increment.1 State.new [Token.PointerIncrement] ⟨[]⟩ (.error 0)
      (by decide) rfl,
    C6_pointer_increment.2.2 State.new [Token.Increment] ⟨[]⟩ (.error 0)
      (State.mk [1] 0 1) (by decide) rfl⟩

/-- C7: when the current token is PointerDecrement and the memory pointer is
0, the step fails with `PointerUnderflow` at the current instruction pointer
(and, the error being returned before any field is assigned, the state is
unchanged); otherwise the memory pointer goes down by 1, the instruction
pointer up by 1, and the tape is untouched. -/
theorem C7_pointer_decrement (s : State) (tokens : List Token) (jt : JumpTable)
    (input : Except IoError Nat)
    (hip : s.instruction_pointer < tokens.length)
    (htok : tokens.getD s.instruction_pointer .Increment = .PointerDecrement) :
    (s.memory_pointer = 0 →
      s.execute_current_instruction tokens jt input =
        .error (.PointerUnderflow s.instruction_pointer)) ∧
    (s.memory_pointer ≠ 0 →
      s.execute_current_instruction tokens jt input = .ok
        { s with
          memory_pointer := s.memory_pointer - 1
          instruction_pointer := s.instruction_pointer + 1 }) := by
  rw [execute_at_pointer_decrement s tokens jt input hip htok]
  unfold State.execute_pointer_decrement
  constructor
  · intro h0
    rw [if_pos h0]
  · intro h0
    rw [if_neg h0]

/-- Witness for C7 at concrete states: underflow at pointer 0, a normal step
at pointer 2. -/
theorem C7_witness :
    State.new.execute_current_instruction [Token.PointerDecrement] ⟨[]⟩ (.error 0) =
      .error (.PointerUnderflow 0) ∧
    (State.mk [0, 0, 0] 2 0).execute_current_instruction [Token.PointerDecrement] ⟨[]⟩
      (.error 0) = .ok
        { State.mk [0, 0, 0] 2 0 with
          memory_pointer := (State.mk [0, 0, 0] 2 0).memory_pointer - 1
          instruction_pointer := (State.mk [0, 0, 0] 2 0).instruction_pointer + 1 } :=
  ⟨(C7_pointer_decrement State.new [Token.PointerDecrement] ⟨[]⟩ (.error 0)
      (by decide) rfl).1 rfl,
    (C7_pointer_decrement (State.mk [0, 0, 0] 2 0) [Token.PointerDecrement] ⟨[]⟩
      (.error 0) (by decide) rfl).2 (by decide)⟩

/-- C8: `can_execute` returns true exactly when the instruction pointer is
strictly below the length of the token sequence (it is a pure function of the
state, with no side effect in the embedding), and calling the single-step
executor when it is false fails with `EndOfInstructions`, the error being
returned before any field of the state is touched. -/
theorem C8_can_execute (s : State) (tokens : List Token) :
    (s.can_execute tokens = true ↔ s.instruction_pointer < tokens.length) ∧
    (∀ (jt : JumpTable) (input : Except IoError Nat),
      s.can_execute tokens = false →
      s.execute_current_instruction tokens jt input = .error .EndOfInstructions) := by
  constructor
  · simp [State.can_execute]
  · intro jt input hfalse
    refine execute_out_of_bounds s tokens jt input ?_
    simpa [State.can_execute] using hfalse

/-- Witness for C8 at a concrete state: the executor refuses to step past the
end of an empty token sequence. -/
theorem C8_witness :
    State.new.execute_current_instruction [] ⟨[]⟩ (.error 0) =
      .error .EndOfInstructions :=
  (C8_can_execute State.new []).2 ⟨[]⟩ (.error 0) rfl

/-- C9: `Token.parse` maps exactly the eight instruction characters to their
tokens and every other character to `none`; `tokenize` emits, in order, the
token of each mapped character and drops the rest, so a sequence of only
unmapped characters tokenizes to the empty sequence. -/
theorem C9_tokenizer :
    (['+', '-', '>', '<', '[', ']', ',', '.'].map Token.parse =
      [some .Increment, some .Decrement, some .PointerIncrement,
        some .PointerDecrement, some .LoopStart, some .LoopEnd,
        some .Input, some .Output]) ∧
    (∀ c : Char, c ∉ ['+', '-', '>', '<', '[', ']', ',', '.'] →
      Token.parse c = none) ∧
    (tokenize [] = []) ∧
    (∀ (c : Char) (cs : List Char),
      tokenize (c :: cs) =
        match Token.parse c with
        | some t => t :: tokenize cs
        | none => tokenize cs) ∧
    (∀ source : List Char, (∀ c ∈ source, Token.parse c = none) →
      tokenize source = []) := by
  refine ⟨rfl, ?_, rfl, ?_, ?_⟩
  · intro c hc
    simp only [List.mem_cons, not_or] at hc
    obtain ⟨h1, h2, h3, h4, h5, h6, h7, h8, _⟩ := hc
    unfold Token.parse
    split <;> simp_all
  · intro c cs
    cases h : Token.parse c <;> simp [tokenize, List.filterMap_cons, h]
  · intro source h
    simp only [tokenize, List.filterMap_eq_nil_iff]
    exact h

/-- Witness for C9 at concrete characters: a space parses to no token and an
all-comment source tokenizes to nothing. -/
theorem C9_witness :
    Token.parse ' ' = none ∧ tokenize ['a', ' ', 'k'] = [] :=
  ⟨C9_tokenizer.2.1 ' ' (by decide),
    C9_tokenizer.2.2.2.2 ['a', ' ', 'k'] (by decide)⟩

/-- C1: the code at the Input instruction. On a failed read the step fails
with `InputError` carrying the current instruction pointer and the underlying
error, as the claim states; but on a successful read the source stores the
byte and returns without touching the instruction pointer (`execute_input`
has no `instruction_pointer += 1`), so the instruction pointer stays at 0
here instead of advancing to 1 as the claim (and the spec) require. -/
theorem C1_input_step_behavior :
    State.new.execute_current_instruction [Token.Input] ⟨[]⟩ (.ok 65) =
      .ok { memory := [65], memory_pointer := 0, instruction_pointer := 0 } ∧
    State.new.execute_current_instruction [Token.Input] ⟨[]⟩ (.error 7) =
      .error (.InputError 0 7) :=
  ⟨rfl, rfl⟩

/-- C4: when the current token is LoopStart and the cell at the memory
pointer is 0, the step jumps to one past the table entry for the current
instruction pointer, or fails with `UndefinedJumpTarget` when there is none;
when the cell is non-zero it advances by exactly 1. When the current token is
LoopEnd, the step jumps exactly onto the table entry, or fails with
`UndefinedJumpTarget` when there is none. The errors are returned before any
field is assigned, so the instruction pointer does not advance on failure. -/
theorem C4_loop_jumps (s : State) (tokens : List Token) (jt : JumpTable)
    (input : Except IoError Nat)
    (hip : s.instruction_pointer < tokens.length) :
    (tokens.getD s.instruction_pointer .Increment = .LoopStart →
      (s.memory.getD s.memory_pointer 0 = 0 →
        (∀ e, jt.resolve s.instruction_pointer = some e →
          s.execute_current_instruction tokens jt input =
            .ok { s with instruction_pointer := e + 1 }) ∧
        (jt.resolve s.instruction_pointer = none →
          s.execute_current_instruction tokens jt input =
            .error (.UndefinedJumpTarget s.instruction_pointer))) ∧
      (s.memory.getD s.memory_pointer 0 ≠ 0 →
        s.execute_current_instruction tokens jt input =
          .ok { s with instruction_pointer := s.instruction_pointer + 1 })) ∧
    (tokens.getD s.instruction_pointer .Increment = .LoopEnd →
      (∀ e, jt.resolve s.instruction_pointer = some e →
        s.execute_current_instruction tokens jt input =
          .ok { s with instruction_pointer := e }) ∧
      (jt.resolve s.instruction_pointer = none →
        s.execute_current_instruction tokens jt input =
          .error (.UndefinedJumpTarget s.instruction_pointer))) := by
  constructor
  · intro htok
    rw [execute_at_loop_start s tokens jt input hip htok]
    unfold State.execute_loop_start
    constructor
    · intro hzero
      rw [hzero]
      constructor
      · intro e he
        rw [he]
      · intro hnone
        rw [hnone]
    · intro hnz
      rcases Nat.exists_eq_succ_of_ne_zero hnz with ⟨k, hk⟩
      rw [hk]
  · intro htok
    rw [execute_at_loop_end s tokens jt input hip htok]
    unfold State.execute_loop_end
    constructor
    · intro e he
      rw [he]
    · intro hnone
      rw [hnone]

/-- Witness for C4 at concrete states: on program `[+]` with a zero cell the
LoopStart jumps to 3; with the table entry for position 2 the LoopEnd jumps
back to 0; with an empty table the LoopEnd fails with `UndefinedJumpTarget`. -/
theorem C4_witness :
    State.new.execute_current_instruction
      [Token.LoopStart, Token.Increment, Token.LoopEnd] ⟨[(2, 0), (0, 2)]⟩
      (.error 0) = .ok { State.new with instruction_pointer := 2 + 1 } ∧
    (State.mk [0] 0 2).execute_current_instruction
      [Token.LoopStart, Token.Increment, Token.LoopEnd] ⟨[(2, 0), (0, 2)]⟩
      (.error 0) = .ok { State.mk [0] 0 2 with instruction_pointer := 0 } ∧
    (State.mk [0] 0 2).execute_current_instruction
      [Token.LoopStart, Token.Increment, Token.LoopEnd] ⟨[]⟩
      (.error 0) = .error (.UndefinedJumpTarget 2) :=
  ⟨((C4_loop_jumps State.new [Token.LoopStart, Token.Increment, Token.LoopEnd]
        ⟨[(2, 0), (0, 2)]⟩ (.error 0) (by decide)).1 rfl).1 rfl |>.1 2 rfl,
    ((C4_loop_jumps (State.mk [0] 0 2) [Token.LoopStart, Token.Increment, Token.LoopEnd]
        ⟨[(2, 0), (0, 2)]⟩ (.error 0) (by decide)).2 rfl).1 0 rfl,
    ((C4_loop_jumps (State.mk [0] 0 2) [Token.LoopStart, Token.Increment, Token.LoopEnd]
        ⟨[]⟩ (.error 0) (by decide)).2 rfl).2 rfl⟩

/-- C10: in every state reachable from `State.new` by any sequence of
execution steps (arbitrary token sequences, jump tables and input outcomes;
failing calls return before mutating and so leave the state they were given),
the memory pointer is strictly below the tape length — every tape access the
engine performs is in bounds and the tape is never empty — and no successful
step ever shrinks the tape. -/
theorem C10_memory_invariant :
    (∀ s : State, Reachable s → s.memory_pointer < s.memory.length) ∧
    (∀ (s : State) (tokens : List Token) (jt : JumpTable)
      (input : Except IoError Nat) (s' : State),
      s.execute_current_instruction tokens jt input = .ok s' →
      s.memory.length ≤ s'.memory.length) := by
  have hstep : ∀ (s : State) (tokens : List Token) (jt : JumpTable)
      (input : Except IoError Nat) (s' : State),
      s.execute_current_instruction tokens jt input = .ok s' →
      (s.memory_pointer < s.memory.length → s'.memory_pointer < s'.memory.length) ∧
      s.memory.length ≤ s'.memory.length := by
    intro s tokens jt input s' hok
    rcases step_shape s s' tokens jt input hok with ⟨_, hmp, hmem⟩ | ⟨_, hlen, hmp⟩
    · rw [hmp, hmem]
      split <;> rename_i hgrow
      · simp
      · constructor
        · intro hlt
          omega
        · exact Nat.le_refl _
    · rw [hlen]
      exact ⟨fun hlt => Nat.lt_of_le_of_lt hmp hlt, Nat.le_refl _⟩
  constructor
  · intro s hs
    induction hs with
    | new => decide
    | step s s' tokens jt input _ hok ih =>
      exact ((hstep s tokens jt input s' hok).1) ih
  · intro s tokens jt input s' hok
    exact (hstep s tokens jt input s' hok).2

/-- Witness for C10: the invariant at the initial state together with the
length monotonicity across a concrete growing step. -/
theorem C10_witness :
    State.new.memory_pointer < State.new.memory.length ∧
    State.new.memory.length ≤ (State.mk [0, 0] 1 1).memory.length :=
  ⟨C10_memory_invariant.1 State.new Reachable.new,
    C10_memory_invariant.2 State.new [Token.PointerIncrement] ⟨[]⟩ (.error 0)
      (State.mk [0, 0] 1 1) rfl⟩

/-! Characterization of the jump-table scan (claim C2). -/

lemma fromAux_trichotomy (rest : List Token) :
    ∀ (pos : Nat) (jumps : List (Nat × Nat)) (stack : List Nat),
    (∀ p, JumpTable.fromAux rest pos jumps stack = .error (.NoMatchingLoopEnd p) ↔
      firstUnmatchedEnd rest pos stack.length = some p) ∧
    (∀ c, JumpTable.fromAux rest pos jumps stack = .error (.TooManyLoopStarts c) ↔
      firstUnmatchedEnd rest pos stack.length = none ∧
        finalDepth rest stack.length = c ∧ c ≠ 0) ∧
    ((∃ t, JumpTable.fromAux rest pos jumps stack = .ok t) ↔
      firstUnmatchedEnd rest pos stack.length = none ∧
        finalDepth rest stack.length = 0) := by
  induction rest with
  | nil =>
    intro pos jumps stack
    cases stack with
    | nil => simp [JumpTable.fromAux, firstUnmatchedEnd, finalDepth]
    | cons a stack =>
      simp [JumpTable.fromAux, firstUnmatchedEnd, finalDepth]
  | cons t rest ih =>
    intro pos jumps stack
    cases t
    case LoopStart =>
      simpa [JumpTable.fromAux, firstUnmatchedEnd, finalDepth] using
        ih (pos + 1) jumps (pos :: stack)
    case LoopEnd =>
      cases stack with
      | nil => simp [JumpTable.fromAux, firstUnmatchedEnd, finalDepth]
      | cons start stack =>
        simpa [JumpTable.fromAux, firstUnmatchedEnd, finalDepth] using
          ih (pos + 1) (hmInsert (hmInsert jumps start pos) pos start) stack
    all_goals
      simpa [JumpTable.fromAux, firstUnmatchedEnd, finalDepth] using
        ih (pos + 1) jumps stack

lemma fromTokens_trichotomy (tokens : List Token) :
    (∀ p, JumpTable.fromTokens tokens = .error (.NoMatchingLoopEnd p) ↔
      firstUnmatchedEnd tokens 0 0 = some p) ∧
    (∀ c, JumpTable.fromTokens tokens = .error (.TooManyLoopStarts c) ↔
      firstUnmatchedEnd tokens 0 0 = none ∧ finalDepth tokens 0 = c ∧ c ≠ 0) ∧
    ((∃ t, JumpTable.fromTokens tokens = .ok t) ↔
      firstUnmatchedEnd tokens 0 0 = none ∧ finalDepth tokens 0 = 0) := by
  simpa [JumpTable.fromTokens] using fromAux_trichotomy tokens 0 [] []

/-- C2: `JumpTable.fromTokens` returns a table exactly when the loop brackets
are perfectly nested and balanced; when it fails because some LoopEnd has no
prior unmatched LoopStart it reports `NoMatchingLoopEnd p` with `p` the
leftmost such LoopEnd's own position, and otherwise (the scan completes with
unmatched starts) it reports `TooManyLoopStarts c` with `c` the number of
unmatched LoopStart tokens remaining. -/
theorem C2_jump_table_build (tokens : List Token) :
    ((JumpTable.fromTokens tokens).isOk = balanced tokens) ∧
    (∀ p, JumpTable.fromTokens tokens = .error (.NoMatchingLoopEnd p) ↔
      firstUnmatchedEnd tokens 0 0 = some p) ∧
    (∀ c, JumpTable.fromTokens tokens = .error (.TooManyLoopStarts c) ↔
      firstUnmatchedEnd tokens 0 0 = none ∧ finalDepth tokens 0 = c ∧ c ≠ 0) := by
  obtain ⟨h1, h2, h3⟩ := fromTokens_trichotomy tokens
  refine ⟨?_, h1, h2⟩
  by_cases hb : balanced tokens = true
  · have hcond : firstUnmatchedEnd tokens 0 0 = none ∧ finalDepth tokens 0 = 0 := by
      simpa [balanced, Option.isNone_iff_eq_none] using hb
    obtain ⟨tbl, htbl⟩ := h3.mpr hcond
    rw [htbl, hb]
    rfl
  · rw [Bool.not_eq_true] at hb
    rw [hb]
    cases he : JumpTable.fromTokens tokens with
    | ok tbl =>
      have hcond := h3.mp ⟨tbl, he⟩
      have : balanced tokens = true := by
        simp [balanced, Option.isNone_iff_eq_none, hcond.1, hcond.2]
      rw [this] at hb
      exact absurd hb (by simp)
    | error e => rfl

/-- Witness for C2 at concrete token sequences: `[+]` builds, a lone LoopEnd
reports its own position, two lone LoopStarts are counted. -/
theorem C2_witness :
    (JumpTable.fromTokens [Token.LoopStart, Token.Increment, Token.LoopEnd]).isOk =
      balanced [Token.LoopStart, Token.Increment, Token.LoopEnd] ∧
    (JumpTable.fromTokens [Token.Increment, Token.LoopEnd] =
      .error (.NoMatchingLoopEnd 1) ↔
      firstUnmatchedEnd [Token.Increment, Token.LoopEnd] 0 0 = some 1) ∧
    (JumpTable.fromTokens [Token.LoopStart, Token.LoopStart] =
      .error (.TooManyLoopStarts 2) ↔
      firstUnmatchedEnd [Token.LoopStart, Token.LoopStart] 0 0 = none ∧
        finalDepth [Token.LoopStart, Token.LoopStart] 0 = 2 ∧ 2 ≠ 0) :=
  ⟨(C2_jump_table_build [Token.LoopStart, Token.Increment, Token.LoopEnd]).1,
    (C2_jump_table_build [Token.Increment, Token.LoopEnd]).2.1 1,
    (C2_jump_table_build [Token.LoopStart, Token.LoopStart]).2.2 2⟩

/-! Helper lemmas about the association-list map and list indexing, and the
invariant of the jump-table scan (claim C3). -/

lemma hmGet_eq_none_iff (m : List (Nat × Nat)) (k : Nat) :
    hmGet m k = none ↔ ∀ pr ∈ m, pr.1 ≠ k := by
  simp [hmGet, List.find?_eq_none]

lemma hmGet_cons (a b k : Nat) (m : List (Nat × Nat)) :
    hmGet ((a, b) :: m) k = if a = k then some b else hmGet m k := by
  by_cases h : a = k <;> simp [hmGet, List.find?_cons, h]

lemma hmInsert_fresh (m : List (Nat × Nat)) (k v : Nat) (h : hmGet m k = none) :
    hmInsert m k v = (k, v) :: m := by
  unfold hmInsert
  congr 1
  apply List.eraseP_of_forall_not
  intro pr hpr
  simpa using (hmGet_eq_none_iff m k).mp h pr hpr

lemma drop_cons_facts {α : Type} (l : List α) (n : Nat) (a : α) (r : List α)
    (d : α) (h : l.drop n = a :: r) :
    n < l.length ∧ l.getD n d = a ∧ l.drop (n + 1) = r := by
  have hlen : n < l.length := by
    by_contra hc
    rw [List.drop_eq_nil_of_le (Nat.le_of_not_lt hc)] at h
    exact absurd h (by simp)
  have hget : l[n]? = some a := by
    have h0 := List.getElem?_drop l n 0
    rw [h] at h0
    simpa using h0.symm
  refine ⟨hlen, ?_, ?_⟩
  · simp [List.getD, hget]
  · have h1 : (l.drop n).tail = l.drop (n + 1) := List.tail_drop l n
    rw [h] at h1
    simpa using h1.symm

lemma take_succ_getD {α : Type} : ∀ (l : List α) (n : Nat) (d : α),
    n < l.length → l.take (n + 1) = l.take n ++ [l.getD n d]
  | a :: l, 0, d, _ => rfl
  | a :: l, n + 1, d, h => by
    have ih := take_succ_getD l n d (Nat.lt_of_succ_lt_succ h)
    simp only [List.take_succ_cons, List.getD_cons_succ, List.cons_append]
    rw [ih]

lemma JTInv.fresh {tokens : List Token} {pos : Nat} {jumps : List (Nat × Nat)}
    {stack : List Nat} (h : JTInv tokens pos jumps stack) :
    hmGet jumps pos = none := by
  cases hg : hmGet jumps pos with
  | none => rfl
  | some q => exact absurd (h.keys_lt pos q hg) (Nat.lt_irrefl pos)

lemma JTInv.bump {tokens : List Token} {pos : Nat} {jumps : List (Nat × Nat)}
    {stack : List Nat} (h : JTInv tokens pos jumps stack)
    (hpos : pos < tokens.length)
    (hne : tokens.getD pos Token.Increment ≠ Token.LoopEnd) :
    JTInv tokens (pos + 1) jumps stack := by
  refine ⟨h.sym, h.tok, ?_, ?_, h.pw, ?_⟩
  · intro p q hpq
    exact Nat.lt_succ_of_lt (h.keys_lt p q hpq)
  · intro x hx
    obtain ⟨h1, h2, h3⟩ := h.stk x hx
    exact ⟨Nat.lt_succ_of_lt h1, h2, h3⟩
  · rw [take_succ_getD tokens pos Token.Increment hpos, List.count_append]
    have h0 : ([tokens.getD pos Token.Increment] : List Token).count Token.LoopEnd = 0 := by
      cases hx : tokens.getD pos Token.Increment
      all_goals first | rfl | exact absurd hx hne
    rw [h0, Nat.add_zero]
    exact h.len

lemma JTInv.push {tokens : List Token} {pos : Nat} {jumps : List (Nat × Nat)}
    {stack : List Nat} (h : JTInv tokens pos jumps stack)
    (hpos : pos < tokens.length)
    (hstart : tokens.getD pos Token.Increment = Token.LoopStart) :
    JTInv tokens (pos + 1) jumps (pos :: stack) := by
  have hb := h.bump hpos (by rw [hstart]; intro hc; cases hc)
  refine ⟨hb.sym, hb.tok, hb.keys_lt, ?_, ?_, hb.len⟩
  · intro x hx
    rcases List.mem_cons.mp hx with rfl | hx'
    · exact ⟨Nat.lt_succ_self x, hstart, h.fresh⟩
    · exact hb.stk x hx'
  · refine List.pairwise_cons.mpr ⟨?_, h.pw⟩
    intro x hx
    exact (h.stk x hx).1

lemma JTInv.pop {tokens : List Token} {pos : Nat} {jumps : List (Nat × Nat)}
    {start : Nat} {stack : List Nat} (h : JTInv tokens pos jumps (start :: stack))
    (hpos : pos < tokens.length)
    (hend : tokens.getD pos Token.Increment = Token.LoopEnd) :
    JTInv tokens (pos + 1) (hmInsert (hmInsert jumps start pos) pos start) stack := by
  obtain ⟨hslt, hstok, hsfresh⟩ := h.stk start (List.mem_cons_self start stack)
  have hpfresh : hmGet jumps pos = none := h.fresh
  have hne : start ≠ pos := Nat.ne_of_lt hslt
  have e1 : hmInsert jumps start pos = (start, pos) :: jumps :=
    hmInsert_fresh jumps start pos hsfresh
  have e2 : hmGet ((start, pos) :: jumps) pos = none := by
    rw [hmGet_cons, if_neg hne]
    exact hpfresh
  have e3 : hmInsert (hmInsert jumps start pos) pos start =
      (pos, start) :: (start, pos) :: jumps := by
    rw [e1, hmInsert_fresh _ _ _ e2]
  rw [e3]
  have hget : ∀ k, hmGet ((pos, start) :: (start, pos) :: jumps) k =
      if pos = k then some start else if start = k then some pos else hmGet jumps k := by
    intro k
    rw [hmGet_cons, hmGet_cons]
  refine ⟨?_, ?_, ?_, ?_, (List.pairwise_cons.mp h.pw).2, ?_⟩
  · -- symmetry of the extended map
    intro p q hpq
    rw [hget p] at hpq
    rw [hget q]
    split at hpq
    · rename_i h1
      injection hpq with hq
      subst hq
      rw [if_neg (Ne.symm hne), if_pos rfl, h1]
    · split at hpq
      · rename_i h1 h2
        injection hpq with hq
        subst hq
        rw [if_pos rfl, h2]
      · rename_i h1 h2
        have hsym := h.sym p q hpq
        have hqlt : q < pos := h.keys_lt q p hsym
        rw [if_neg (Nat.ne_of_gt hqlt), if_neg ?_]
        · exact hsym
        · intro hc
          rw [← hc, hsfresh] at hsym
          cases hsym
  · -- keys pair a LoopStart position with a LoopEnd position
    intro p q hpq
    rw [hget p] at hpq
    split at hpq
    · rename_i h1
      injection hpq with hq
      subst hq
      right
      exact ⟨by rw [← h1]; exact hend, hstok⟩
    · split at hpq
      · rename_i h1 h2
        injection hpq with hq
        subst hq
        left
        exact ⟨by rw [← h2]; exact hstok, hend⟩
      · exact h.tok p q hpq
  · -- all keys lie below pos + 1
    intro p q hpq
    rw [hget p] at hpq
    split at hpq
    · rename_i h1
      omega
    · split at hpq
      · rename_i h1 h2
        omega
      · have := h.keys_lt p q hpq
        omega
  · -- the remaining stack entries are still pending
    intro x hx
    obtain ⟨hxlt, hxtok, hxfresh⟩ := h.stk x (List.mem_cons_of_mem start hx)
    refine ⟨by omega, hxtok, ?_⟩
    rw [hget x]
    have hx_start : x < start := (List.pairwise_cons.mp h.pw).1 x hx
    rw [if_neg (by omega), if_neg (by omega)]
    exact hxfresh
  · -- two more bindings, one more LoopEnd in the processed prefix
    rw [take_succ_getD tokens pos Token.Increment hpos, List.count_append, hend]
    have h1 : ([Token.LoopEnd] : List Token).count Token.LoopEnd = 1 := rfl
    rw [h1]
    simp only [List.length_cons]
    have := h.len
    omega

lemma fromAux_ok_inv (tokens : List Token) (rest : List Token) :
    ∀ (pos : Nat) (jumps : List (Nat × Nat)) (stack : List Nat) (t : JumpTable),
    tokens.drop pos = rest →
    JTInv tokens pos jumps stack →
    JumpTable.fromAux rest pos jumps stack = .ok t →
    (∀ p q, hmGet t.jumps p = some q → hmGet t.jumps q = some p) ∧
    (∀ p q, hmGet t.jumps p = some q →
      (tokens.getD p Token.Increment = Token.LoopStart ∧
        tokens.getD q Token.Increment = Token.LoopEnd) ∨
      (tokens.getD p Token.Increment = Token.LoopEnd ∧
        tokens.getD q Token.Increment = Token.LoopStart)) ∧
    (∀ p q, hmGet t.jumps p = some q → p < tokens.length) ∧
    t.jumps.length = 2 * tokens.count Token.LoopEnd := by
  induction rest with
  | nil =>
    intro pos jumps stack t hdrop hinv hok
    have hlen : tokens.length ≤ pos := by
      by_contra hc
      have := congrArg List.length hdrop
      simp [List.length_drop] at this
      omega
    cases stack with
    | cons a stack => simp [JumpTable.fromAux] at hok
    | nil =>
      cases t with
      | mk tj =>
        simp [JumpTable.fromAux, JumpTable.mk.injEq] at hok
        subst hok
        refine ⟨hinv.sym, hinv.tok, ?_, ?_⟩
        · intro p q hpq
          by_contra hc
          have hd : tokens.getD p Token.Increment = Token.Increment :=
            List.getD_eq_default tokens Token.Increment (Nat.le_of_not_lt hc)
          rcases hinv.tok p q hpq with ⟨hp, _⟩ | ⟨hp, _⟩ <;>
            (rw [hd] at hp; cases hp)
        · rw [hinv.len, List.take_of_length_le hlen]
  | cons tk rest ih =>
    intro pos jumps stack t hdrop hinv hok
    obtain ⟨hpos, htok, hdrop'⟩ :=
      drop_cons_facts tokens pos tk rest Token.Increment hdrop
    cases tk
    case LoopStart =>
      simp only [JumpTable.fromAux] at hok
      exact ih (pos + 1) jumps (pos :: stack) t hdrop' (hinv.push hpos htok) hok
    case LoopEnd =>
      cases stack with
      | nil => simp [JumpTable.fromAux] at hok
      | cons start stack =>
        simp only [JumpTable.fromAux] at hok
        exact ih (pos + 1) (hmInsert (hmInsert jumps start pos) pos start) stack t
          hdrop' (hinv.pop hpos htok) hok
    all_goals
      simp only [JumpTable.fromAux] at hok
      exact ih (pos + 1) jumps stack t hdrop'
        (hinv.bump hpos (by rw [htok]; intro hc; cases hc)) hok

/-- C3: a successfully built jump table is a self-inverse pairing of
LoopStart/LoopEnd positions of the sequence it was built from: whenever
`resolve p` yields `q`, `resolve q` yields `p` back (hence
`resolve (resolve p)` returns to `p`), `p` and `q` are in-bounds positions
holding one LoopStart and one LoopEnd; `resolve` yields no entry for any
position that holds neither bracket token (out-of-bounds positions hold
neither); and the underlying map has exactly 2 times (number of matched
pairs) entries, the number of matched pairs being the number of LoopEnd
tokens in the sequence. -/
theorem C3_table_pairing (tokens : List Token) (t : JumpTable)
    (h : JumpTable.fromTokens tokens = .ok t) :
    (∀ p q, t.resolve p = some q →
      t.resolve q = some p ∧ p < tokens.length ∧ q < tokens.length ∧
      ((tokens.getD p Token.Increment = Token.LoopStart ∧
        tokens.getD q Token.Increment = Token.LoopEnd) ∨
       (tokens.getD p Token.Increment = Token.LoopEnd ∧
        tokens.getD q Token.Increment = Token.LoopStart))) ∧
    (∀ p, tokens.getD p Token.Increment ≠ Token.LoopStart →
      tokens.getD p Token.Increment ≠ Token.LoopEnd → t.resolve p = none) ∧
    t.jumps.length = 2 * tokens.count Token.LoopEnd := by
  have hinv0 : JTInv tokens 0 [] [] := by
    refine ⟨?_, ?_, ?_, ?_, ?_, ?_⟩ <;> simp [hmGet]
  obtain ⟨hsym, htk, hlt, hlen⟩ :=
    fromAux_ok_inv tokens tokens 0 [] [] t rfl hinv0 h
  refine ⟨?_, ?_, hlen⟩
  · intro p q hpq
    have hpq' : hmGet t.jumps p = some q := hpq
    have hq := hsym p q hpq'
    exact ⟨hq, hlt p q hpq', hlt q p hq, htk p q hpq'⟩
  · intro p hp1 hp2
    cases hr : t.resolve p with
    | none => rfl
    | some q =>
      have hr' : hmGet t.jumps p = some q := hr
      rcases htk p q hr' with ⟨hp, _⟩ | ⟨hp, _⟩
      · exact absurd hp hp1
      · exact absurd hp hp2

/-- Witness for C3: the table built from `[+]` resolves position 0 to its
matching end at 2, obtained through the pairing theorem from
`resolve 2 = some 0`. -/
theorem C3_witness :
    JumpTable.resolve ⟨[(2, 0), (0, 2)]⟩ 0 = some 2 :=
  ((C3_table_pairing [Token.LoopStart, Token.Increment, Token.LoopEnd]
      ⟨[(2, 0), (0, 2)]⟩ rfl).1 2 0 rfl).1
